import Mathlib

/-!
Shallow embedding of the Downloads-Cleaner sorting engine
(`src/downloads_sorter.py`, class `DownloadsSorter`) and proofs about it.

The watched directory is modelled one level deep: a list of top-level
entries (name + directory flag), an association list from managed
subdirectory names to their contents, and the process-lifetime set of
tracked file names (`self.existing_files`).
-/

set_option maxHeartbeats 1000000

namespace DSort

/-- A directory entry: its name and whether it is a directory
(`is_dir()`; files are the `is_file()` case). -/
structure Entry where
  name : String
  isDir : Bool
deriving DecidableEq, Repr

/-- Index of the last occurrence of `'.'` in a character list
(`str.rfind('.')` when it succeeds). -/
def lastDot : List Char → Option Nat
  | [] => none
  | c :: rest =>
    match lastDot rest with
    | some i => some (i + 1)
    | none => if c = '.' then some 0 else none

/-- Python `pathlib` split of a file name into `(stem, suffix)`:
with `i = name.rfind('.')`, the suffix is `name[i:]` when
`0 < i < len(name) - 1` and empty otherwise, the stem being the rest. -/
def pySplit (name : String) : String × String :=
  let cs := name.data
  match lastDot cs with
  | some i =>
    if 0 < i ∧ i < cs.length - 1 then (⟨cs.take i⟩, ⟨cs.drop i⟩) else (name, "")
  | none => (name, "")

/-- `Path(name).suffix`. -/
def pySuffix (name : String) : String := (pySplit name).2

/-- `Path(name).stem`. -/
def pyStem (name : String) : String := (pySplit name).1

/-- Python `str.lower()`, per character (the names involved are ASCII). -/
def strLower (s : String) : String := ⟨s.data.map Char.toLower⟩

/-- `self.categories`: category names with their extension sets, in the
insertion order of the Python dict. -/
def categories : List (String × List String) :=
  [("Images", [".jpg", ".jpeg", ".png", ".gif", ".bmp", ".tiff", ".webp", ".svg", ".ico", ".heic"]),
   ("Zip_Files", [".zip", ".rar", ".7z", ".tar", ".gz", ".bz2", ".xz", ".lzma", ".cab", ".iso"]),
   ("STEP_Files", [".step", ".stp", ".stl", ".obj", ".3ds", ".dae", ".fbx"]),
   ("3MF_Files", [".3mf"]),
   ("PDFs", [".pdf"])]

/-- The `for category, extensions in self.categories.items()` loop of
`_get_file_category`: first category whose extension set contains `ext`. -/
def findCat : List (String × List String) → String → String
  | [], _ => "Other"
  | (c, exts) :: rest, ext => if ext ∈ exts then c else findCat rest ext

/-- `DownloadsSorter._get_file_category`, on the file's name. -/
def getFileCategory (name : String) : String :=
  findCat categories (strLower (pySuffix name))

/-- Destination names tried by `_move_file`: the original name first,
then `f"{stem}_{counter}{ext}"` for `counter = 1, 2, ...`. -/
def fileCand (stem ext : String) : Nat → String
  | 0 => stem ++ ext
  | n + 1 => stem ++ "_" ++ Nat.repr (n + 1) ++ ext

/-- Destination names tried by `_move_folder_to_rogue`: the original name,
then `f"{name}_{counter}"` for `counter = 1, 2, ...`. -/
def folderCand (name : String) : Nat → String
  | 0 => name
  | n + 1 => name ++ "_" ++ Nat.repr (n + 1)

/-- The `while destination.exists()` loop: starting at index `n`, walk the
candidate sequence until a name not present in `existing` is found.
`fuel` bounds the recursion; `existing.length + 1` steps always suffice
because the candidates are pairwise distinct. -/
def findFreeAux (existing : List String) (cand : Nat → String) : Nat → Nat → Nat
  | 0, n => n
  | fuel + 1, n => if cand n ∈ existing then findFreeAux existing cand fuel (n + 1) else n

/-- Index of the first candidate name not occurring in `existing`. -/
def findFree (existing : List String) (cand : Nat → String) : Nat :=
  findFreeAux existing cand (existing.length + 1) 0

/-- The conflict-free destination name chosen among `existing` names. -/
def resolveName (existing : List String) (cand : Nat → String) : String :=
  cand (findFree existing cand)

/-- State of the watched directory and of the sorter process:
top-level entries, contents of the managed subdirectories, and
`self.existing_files`. -/
structure FSState where
  top : List Entry
  subs : List (String × List Entry)
  tracked : List String
deriving DecidableEq, Repr

/-- Contents of subdirectory `dir` in an association list. -/
def getSubL (subs : List (String × List Entry)) (dir : String) : List Entry :=
  match subs.find? (fun p => p.1 == dir) with
  | some p => p.2
  | none => []

/-- Contents of managed subdirectory `dir`. -/
def getSub (s : FSState) (dir : String) : List Entry :=
  getSubL s.subs dir

/-- Replace the contents of subdirectory `dir`. -/
def setSub (subs : List (String × List Entry)) (dir : String) (v : List Entry) :
    List (String × List Entry) :=
  if subs.any (fun p => p.1 == dir) then
    subs.map (fun p => if p.1 == dir then (p.1, v) else p)
  else subs ++ [(dir, v)]

/-- Removing a path from a directory listing: drop the entry with that name. -/
def removeName (n : String) (l : List Entry) : List Entry :=
  l.filter (fun e => decide (e.name ≠ n))

/-- `DownloadsSorter._move_file`: route `"Other"` to `Others/`, otherwise to
the category directory; resolve the collision-free destination name and
move the file there. -/
def moveFile (s : FSState) (e : Entry) (category : String) : FSState :=
  let dirName := if category = "Other" then "Others" else category
  let content := getSub s dirName
  let dest := resolveName (content.map (·.name)) (fileCand (pyStem e.name) (pySuffix e.name))
  { s with
    top := removeName e.name s.top
    subs := setSub s.subs dirName (content ++ [⟨dest, false⟩]) }

/-- `DownloadsSorter._move_folder_to_rogue`. -/
def moveFolderToRogue (s : FSState) (e : Entry) : FSState :=
  let content := getSub s "Rogue_Folders"
  let dest := resolveName (content.map (·.name)) (folderCand e.name)
  { s with
    top := removeName e.name s.top
    subs := setSub s.subs "Rogue_Folders" (content ++ [⟨dest, true⟩]) }

/-- `self.categories.keys()`. -/
def categoryNames : List String := categories.map (·.1)

/-- The `ignored_folders` literal of the scan loops. -/
def ignoredFolders : List String := ["Rogue_Folders", "Others", "gcode drop"]

/-- One iteration of the `_scan_and_sort_existing_files` loop on entry `e`. -/
def scanStep (s : FSState) (e : Entry) : FSState :=
  if e.isDir = false then
    if e.name ∈ s.tracked then s
    else
      let category := getFileCategory e.name
      let s' := if category ≠ "Other" then moveFile s e category else s
      { s' with tracked := s'.tracked ++ [e.name] }
  else
    if e.name ∈ categoryNames ∨ e.name ∈ ignoredFolders then s
    else moveFolderToRogue s e

/-- `DownloadsSorter._scan_and_sort_existing_files` (the initial full scan). -/
def fullScan (s : FSState) : FSState := s.top.foldl scanStep s

/-- The archive extension set hard-coded in `_cleanup_redundant_zips`. -/
def zipExts : List String :=
  [".zip", ".rar", ".7z", ".tar", ".gz", ".bz2", ".xz", ".lzma", ".cab", ".iso"]

/-- `corresponding_folder.exists() and corresponding_folder.is_dir()`. -/
def hasDirNamed (l : List Entry) (n : String) : Bool :=
  l.any (fun e => e.isDir && e.name == n)

/-- The deletion condition of `_cleanup_redundant_zips` for one item,
checked against the current contents `cur` of `Zip_Files/`. -/
def isRedundantZip (cur : List Entry) (e : Entry) : Bool :=
  !e.isDir && zipExts.contains (strLower (pySuffix e.name)) && hasDirNamed cur (pyStem e.name)

/-- The `for item in zip_folder.iterdir()` loop of `_cleanup_redundant_zips`.
`fails` are the names whose `unlink()` raises; the surrounding
`try/except` catches the exception outside the loop, so a failure ends
the whole pass with the current contents unchanged. -/
def cleanupRun (fails : List String) : List Entry → List Entry → List Entry
  | [], cur => cur
  | e :: rest, cur =>
    if isRedundantZip cur e then
      if e.name ∈ fails then cur
      else cleanupRun fails rest (removeName e.name cur)
    else cleanupRun fails rest cur

/-- `DownloadsSorter._cleanup_redundant_zips` on the contents of `Zip_Files/`. -/
def cleanupZips (entries : List Entry) (fails : List String) : List Entry :=
  cleanupRun fails entries entries

/-- `DownloadsSorter._get_current_files`: names of the top-level *files*. -/
def getCurrentFiles (s : FSState) : List String :=
  (s.top.filter (fun e => !e.isDir)).map (·.name)

/-- One iteration of the `_process_new_files` loop on file name `filename`. -/
def processOne (s : FSState) (filename : String) : FSState :=
  match s.top.find? (fun e => e.name == filename) with
  | none => s
  | some e =>
    if e.isDir = false then
      let category := getFileCategory e.name
      let s' := moveFile s e category
      { s' with tracked := s'.tracked ++ [filename] }
    else
      if e.name ∈ categoryNames ∨ e.name ∈ ignoredFolders then s
      else moveFolderToRogue s e

/-- `DownloadsSorter._process_new_files`: process the names not yet tracked,
then run the redundant-archive cleanup on `Zip_Files/`. -/
def processNewFiles (s : FSState) (current : List String) : FSState :=
  let newFiles := current.filter (fun n => decide (n ∉ s.tracked))
  let s' := newFiles.foldl processOne s
  { s' with subs := setSub s'.subs "Zip_Files" (cleanupZips (getSub s' "Zip_Files") []) }

/-- One incremental tick of the monitoring loop:
`_process_new_files(self._get_current_files())`. -/
def tick (s : FSState) : FSState :=
  processNewFiles s (getCurrentFiles s)

/-- Extension extraction as worded by the spec (for comparison with the
code's `pySuffix`): the text from the last `'.'` on, empty only when the
name has no `'.'` or ends in `'.'` — the spec does not except a leading
dot. -/
def specSuffix (name : String) : String :=
  let cs := name.data
  match lastDot cs with
  | some i => if i < cs.length - 1 then ⟨cs.drop i⟩ else ""
  | none => ""

/-- The classifier as described by the spec's extension rule. -/
def specClassify (name : String) : String :=
  findCat categories (strLower (specSuffix name))

/-- Numeric value of a decimal digit character. -/
def decDigit (c : Char) : Nat := c.toNat - 48

/-- Decimal value of a digit string; left inverse of `Nat.toDigits 10`. -/
def ofDigits (l : List Char) : Nat := l.foldl (fun a c => 10 * a + decDigit c) 0

/-- Well-formedness of a category configuration: pairwise distinct
category names and pairwise disjoint extension sets. -/
def CatsOK (l : List (String × List String)) : Prop :=
  l.Pairwise (fun p q => p.1 ≠ q.1 ∧ ∀ e ∈ p.2, e ∉ q.2)

/-- Invariant holding of every top-level entry once a full scan has run:
files are tracked, surviving directories have reserved names. -/
def Pres (t : FSState) (e : Entry) : Prop :=
  (e.isDir = false → e.name ∈ t.tracked) ∧
  (e.isDir = true → e.name ∈ categoryNames ∨ e.name ∈ ignoredFolders)

/-- The subdirectories created by `_create_category_directories`, empty. -/
def initSubs : List (String × List Entry) :=
  [("Images", []), ("Zip_Files", []), ("STEP_Files", []), ("3MF_Files", []), ("PDFs", []),
   ("Rogue_Folders", []), ("Others", [])]

/-- A fresh watched directory holding one uncategorized file. -/
def c1State : FSState := ⟨[⟨"weird.xyz", false⟩], initSubs, []⟩

/-- State after `photo.png` was sorted into `Images/` and a new top-level
file of the same name has appeared. -/
def c2State : FSState :=
  ⟨[⟨"photo.png", false⟩],
   [("Images", [⟨"photo.png", false⟩]), ("Zip_Files", []), ("STEP_Files", []),
    ("3MF_Files", []), ("PDFs", []), ("Rogue_Folders", []), ("Others", [])],
   ["photo.png"]⟩

/-- State after the initial scan in which a new top-level directory
`NewDir` has appeared. -/
def c3State : FSState := ⟨[⟨"NewDir", true⟩], initSubs, []⟩

/-- `Zip_Files/` contents with two redundant archives and their
same-stem sibling directories. -/
def cexZips : List Entry := [⟨"a.zip", false⟩, ⟨"a", true⟩, ⟨"b.zip", false⟩, ⟨"b", true⟩]

end DSort

namespace DSort

theorem ofDigits_append (l : List Char) (c : Char) :
    ofDigits (l ++ [c]) = 10 * ofDigits l + decDigit c := by
  simp [ofDigits, List.foldl_append]

theorem decDigit_digitChar (m : Nat) (h : m < 10) : decDigit (Nat.digitChar m) = m := by
  interval_cases m <;> decide

theorem toDigitsCore_break (b : Nat) :
    ∀ (fuel n : Nat) (ds : List Char),
      Nat.toDigitsCore b fuel n ds = Nat.toDigitsCore b fuel n [] ++ ds := by
  intro fuel
  induction fuel with
  | zero => intro n ds; simp [Nat.toDigitsCore]
  | succ fuel ih =>
    intro n ds
    simp only [Nat.toDigitsCore]
    by_cases h : n / b = 0
    · simp [h]
    · simp only [h, if_false]
      rw [ih (n / b) (Nat.digitChar (n % b) :: ds), ih (n / b) [Nat.digitChar (n % b)]]
      simp

theorem ofDigits_toDigitsCore :
    ∀ (fuel n : Nat), n < fuel → ofDigits (Nat.toDigitsCore 10 fuel n []) = n := by
  intro fuel
  induction fuel with
  | zero => intro n h; omega
  | succ fuel ih =>
    intro n h
    simp only [Nat.toDigitsCore]
    by_cases h0 : n / 10 = 0
    · simp only [h0, if_pos]
      have hn : n < 10 := by omega
      simp [ofDigits, decDigit_digitChar (n % 10) (by omega)]
      omega
    · simp only [h0, if_neg, ite_false]
      rw [toDigitsCore_break 10 fuel (n / 10) [Nat.digitChar (n % 10)]]
      rw [ofDigits_append]
      rw [ih (n / 10) (by omega), decDigit_digitChar (n % 10) (by omega)]
      omega

theorem repr_injective : Function.Injective Nat.repr := by
  intro a b h
  have hd : Nat.toDigits 10 a = Nat.toDigits 10 b := congrArg String.data h
  have ha := ofDigits_toDigitsCore (a + 1) a (by omega)
  have hb := ofDigits_toDigitsCore (b + 1) b (by omega)
  rw [show Nat.toDigitsCore 10 (a + 1) a [] = Nat.toDigits 10 a from rfl] at ha
  rw [show Nat.toDigitsCore 10 (b + 1) b [] = Nat.toDigits 10 b from rfl] at hb
  rw [← ha, ← hb, hd]

theorem fileCand_injective (stem ext : String) : Function.Injective (fileCand stem ext) := by
  intro m n h
  match m, n with
  | 0, 0 => rfl
  | 0, n + 1 =>
    exfalso
    have hlen := congrArg (fun s => s.data.length) h
    simp [fileCand, String.data_append] at hlen
    omega
  | m + 1, 0 =>
    exfalso
    have hlen := congrArg (fun s => s.data.length) h
    simp [fileCand, String.data_append] at hlen
    omega
  | m + 1, n + 1 =>
    have hd := congrArg String.data h
    simp only [fileCand, String.data_append, List.append_assoc] at hd
    have h1 := List.append_cancel_left hd
    have h2 := List.append_cancel_left h1
    have h3 := List.append_cancel_right h2
    have := repr_injective (String.ext h3)
    omega

theorem folderCand_injective (name : String) : Function.Injective (folderCand name) := by
  intro m n h
  match m, n with
  | 0, 0 => rfl
  | 0, n + 1 =>
    exfalso
    have hlen := congrArg (fun s => s.data.length) h
    simp [folderCand, String.data_append] at hlen
  | m + 1, 0 =>
    exfalso
    have hlen := congrArg (fun s => s.data.length) h
    simp [folderCand, String.data_append] at hlen
  | m + 1, n + 1 =>
    have hd := congrArg String.data h
    simp only [folderCand, String.data_append, List.append_assoc] at hd
    have h1 := List.append_cancel_left hd
    have h2 := List.append_cancel_left h1
    have := repr_injective (String.ext h2)
    omega

theorem exists_free_cand (existing : List String) (cand : Nat → String)
    (hinj : Function.Injective cand) :
    ∃ m, m ≤ existing.length ∧ cand m ∉ existing := by
  by_contra hc
  push_neg at hc
  have hsub : (Finset.range (existing.length + 1)).image cand ⊆ existing.toFinset := by
    intro x hx
    simp only [Finset.mem_image, Finset.mem_range] at hx
    obtain ⟨m, hm, rfl⟩ := hx
    exact List.mem_toFinset.mpr (hc m (by omega))
  have hcard := Finset.card_le_card hsub
  rw [Finset.card_image_of_injective _ hinj, Finset.card_range] at hcard
  have := existing.toFinset_card_le
  omega

theorem findFreeAux_spec (existing : List String) (cand : Nat → String) :
    ∀ (fuel n : Nat), (∃ m, n ≤ m ∧ m < n + fuel ∧ cand m ∉ existing) →
      cand (findFreeAux existing cand fuel n) ∉ existing ∧
      n ≤ findFreeAux existing cand fuel n ∧
      ∀ k, n ≤ k → k < findFreeAux existing cand fuel n → cand k ∈ existing := by
  intro fuel
  induction fuel with
  | zero =>
    intro n h
    obtain ⟨m, h1, h2, _⟩ := h
    omega
  | succ fuel ih =>
    intro n hex
    simp only [findFreeAux]
    by_cases h : cand n ∈ existing
    · simp only [if_pos h]
      obtain ⟨m, h1, h2, h3⟩ := hex
      have hm : n + 1 ≤ m := by
        rcases Nat.eq_or_lt_of_le h1 with rfl | hlt
        · exact absurd h h3
        · omega
      obtain ⟨r1, r2, r3⟩ := ih (n + 1) ⟨m, hm, by omega, h3⟩
      refine ⟨r1, by omega, fun k hk1 hk2 => ?_⟩
      rcases Nat.eq_or_lt_of_le hk1 with rfl | hlt
      · exact h
      · exact r3 k hlt hk2
    · simp only [if_neg h]
      exact ⟨h, Nat.le_refl n, fun k hk1 hk2 => by omega⟩

theorem resolveName_spec (existing : List String) (cand : Nat → String)
    (hinj : Function.Injective cand) :
    resolveName existing cand ∉ existing ∧
      ∃ k, resolveName existing cand = cand k ∧ ∀ m < k, cand m ∈ existing := by
  obtain ⟨m, hm1, hm2⟩ := exists_free_cand existing cand hinj
  obtain ⟨r1, _, r3⟩ :=
    findFreeAux_spec existing cand (existing.length + 1) 0 ⟨m, by omega, by omega, hm2⟩
  exact ⟨r1, findFree existing cand, rfl, fun k hk => r3 k (by omega) hk⟩

/-- C6: the conflict-safe placer never overwrites: starting from the
original name and appending `_1`, `_2`, … (before the extension for
files, after the whole name for folders), it picks the first candidate
name absent from the destination directory, with no upper bound on the
counter; placing two files named `a.png` in sequence yields `a.png` then
`a_1.png`. -/
theorem c6_placer_no_overwrite (existing : List String) (stem ext name : String) :
    (resolveName existing (fileCand stem ext) ∉ existing ∧
      ∃ k, resolveName existing (fileCand stem ext) = fileCand stem ext k ∧
        ∀ m < k, fileCand stem ext m ∈ existing) ∧
    (resolveName existing (folderCand name) ∉ existing ∧
      ∃ k, resolveName existing (folderCand name) = folderCand name k ∧
        ∀ m < k, folderCand name m ∈ existing) ∧
    getSub (moveFile (moveFile ⟨[⟨"a.png", false⟩], initSubs, []⟩ ⟨"a.png", false⟩ "Images")
        ⟨"a.png", false⟩ "Images") "Images" = [⟨"a.png", false⟩, ⟨"a_1.png", false⟩] :=
  ⟨resolveName_spec _ _ (fileCand_injective stem ext),
   resolveName_spec _ _ (folderCand_injective name), by decide⟩

end DSort

namespace DSort

theorem findCat_other (l : List (String × List String)) (ext : String)
    (h : ∀ q ∈ l, ext ∉ q.2) : findCat l ext = "Other" := by
  induction l with
  | nil => rfl
  | cons p rest ih =>
    obtain ⟨c, exts⟩ := p
    simp only [findCat]
    rw [if_neg (h (c, exts) (by simp))]
    exact ih fun q hq => h q (by simp [hq])

theorem findCat_mem (l : List (String × List String)) (ext : String)
    (h : findCat l ext ≠ "Other") :
    ∃ q ∈ l, findCat l ext = q.1 ∧ ext ∈ q.2 := by
  induction l with
  | nil => simp [findCat] at h
  | cons p rest ih =>
    obtain ⟨c, exts⟩ := p
    by_cases hm : ext ∈ exts
    · exact ⟨(c, exts), by simp, by simp only [findCat]; rw [if_pos hm], hm⟩
    · have hrw : findCat ((c, exts) :: rest) ext = findCat rest ext := by
        simp only [findCat]; rw [if_neg hm]
      rw [hrw] at h ⊢
      obtain ⟨q, hq, h1, h2⟩ := ih h
      exact ⟨q, by simp [hq], h1, h2⟩

theorem findCat_eq_iff (l : List (String × List String)) (ext : String)
    (hok : CatsOK l) (hO : ∀ p ∈ l, p.1 ≠ "Other") (cat : String) (exts : List String)
    (hmem : (cat, exts) ∈ l) :
    findCat l ext = cat ↔ ext ∈ exts := by
  induction l with
  | nil => simp at hmem
  | cons p rest ih =>
    obtain ⟨c, cexts⟩ := p
    rw [CatsOK, List.pairwise_cons] at hok
    obtain ⟨hrel, hok'⟩ := hok
    rcases List.mem_cons.mp hmem with heq | hrest
    · injection heq.symm with h1 h2
      subst h1; subst h2
      simp only [findCat]
      by_cases hm : ext ∈ cexts
      · simp [hm]
      · rw [if_neg hm]
        constructor
        · intro hfc
          exfalso
          by_cases hother : findCat rest ext = "Other"
          · rw [hfc] at hother
            exact hO (c, cexts) (by simp) hother
          · obtain ⟨q, hq, hq1, _⟩ := findCat_mem rest ext hother
            rw [hfc] at hq1
            exact (hrel q hq).1 hq1
        · intro hm2
          exact absurd hm2 hm
    · simp only [findCat]
      by_cases hm : ext ∈ cexts
      · rw [if_pos hm]
        constructor
        · intro hceq
          exact absurd hceq (hrel (cat, exts) hrest).1
        · intro hext
          exact absurd hext ((hrel (cat, exts) hrest).2 ext hm)
      · rw [if_neg hm]
        exact ih hok' (fun p hp => hO p (by simp [hp])) hrest

theorem getFileCategory_other_or_mem (n : String) :
    getFileCategory n = "Other" ∨ getFileCategory n ∈ categoryNames := by
  by_cases h : getFileCategory n = "Other"
  · exact Or.inl h
  · obtain ⟨q, hq, h1, _⟩ := findCat_mem categories (strLower (pySuffix n)) h
    right
    rw [getFileCategory, h1]
    exact List.mem_map_of_mem (·.1) hq

theorem getSubL_cons_pos (q : String × List Entry) (rest : List (String × List Entry))
    (d : String) (h : q.1 = d) : getSubL (q :: rest) d = q.2 := by
  simp [getSubL, List.find?_cons_of_pos, h]

theorem getSubL_cons_neg (q : String × List Entry) (rest : List (String × List Entry))
    (d : String) (h : q.1 ≠ d) : getSubL (q :: rest) d = getSubL rest d := by
  unfold getSubL
  rw [List.find?_cons_of_neg rest (by simp [h])]

theorem getSubL_map_upd (subs : List (String × List Entry)) (d : String) (v : List Entry)
    (hany : subs.any (fun p => p.1 == d) = true) :
    getSubL (subs.map (fun p => if p.1 == d then (p.1, v) else p)) d = v := by
  induction subs with
  | nil => simp at hany
  | cons q rest ih =>
    rw [List.map_cons]
    by_cases hq : q.1 = d
    · rw [if_pos (by simpa using hq), getSubL_cons_pos (q.1, v) _ d hq]
    · rw [if_neg (by simpa using hq), getSubL_cons_neg _ _ _ hq]
      apply ih
      simpa [List.any_cons, show (q.1 == d) = false by simpa using hq] using hany

theorem getSubL_append_self (subs : List (String × List Entry)) (d : String) (v : List Entry)
    (hnot : ∀ q ∈ subs, q.1 ≠ d) : getSubL (subs ++ [(d, v)]) d = v := by
  induction subs with
  | nil => rw [List.nil_append, getSubL_cons_pos _ _ _ rfl]
  | cons q rest ih =>
    rw [List.cons_append, getSubL_cons_neg _ _ _ (hnot q (by simp))]
    exact ih (fun r hr => hnot r (by simp [hr]))

theorem getSubL_setSub_self (subs : List (String × List Entry)) (d : String) (v : List Entry) :
    getSubL (setSub subs d v) d = v := by
  unfold setSub
  by_cases hany : subs.any (fun p => p.1 == d) = true
  · rw [if_pos hany]
    exact getSubL_map_upd subs d v hany
  · rw [if_neg hany]
    refine getSubL_append_self subs d v (fun q hq he => ?_)
    exact hany (List.any_eq_true.mpr ⟨q, hq, by simpa using he⟩)

theorem getSubL_map_ne (subs : List (String × List Entry)) (d d' : String) (v : List Entry)
    (h : d ≠ d') :
    getSubL (subs.map (fun p => if p.1 == d then (p.1, v) else p)) d' = getSubL subs d' := by
  induction subs with
  | nil => rfl
  | cons q rest ih =>
    rw [List.map_cons]
    by_cases hq : q.1 = d'
    · have hqd : q.1 ≠ d := fun he => h (he ▸ hq)
      rw [if_neg (by simpa using hqd), getSubL_cons_pos _ _ _ hq, getSubL_cons_pos _ _ _ hq]
    · by_cases hqd : q.1 = d
      · rw [if_pos (by simpa using hqd), getSubL_cons_neg (q.1, v) _ d' hq,
          getSubL_cons_neg _ _ _ hq]
        exact ih
      · rw [if_neg (by simpa using hqd), getSubL_cons_neg _ _ _ hq, getSubL_cons_neg _ _ _ hq]
        exact ih

theorem getSubL_append_ne (subs : List (String × List Entry)) (d d' : String) (v : List Entry)
    (h : d ≠ d') : getSubL (subs ++ [(d, v)]) d' = getSubL subs d' := by
  induction subs with
  | nil =>
    rw [List.nil_append, getSubL_cons_neg _ _ _ h]
  | cons q rest ih =>
    rw [List.cons_append]
    by_cases hq : q.1 = d'
    · rw [getSubL_cons_pos _ _ _ hq, getSubL_cons_pos _ _ _ hq]
    · rw [getSubL_cons_neg _ _ _ hq, getSubL_cons_neg _ _ _ hq]
      exact ih

theorem getSubL_setSub_ne (subs : List (String × List Entry)) (d d' : String) (v : List Entry)
    (h : d ≠ d') : getSubL (setSub subs d v) d' = getSubL subs d' := by
  unfold setSub
  by_cases hany : subs.any (fun p => p.1 == d) = true
  · rw [if_pos hany]
    exact getSubL_map_ne subs d d' v h
  · rw [if_neg hany]
    exact getSubL_append_ne subs d d' v h

end DSort

namespace DSort

theorem lastDot_eq_none (l : List Char) (h : '.' ∉ l) : lastDot l = none := by
  induction l with
  | nil => rfl
  | cons c rest ih =>
    have hc : c ≠ '.' := fun he => h (by simp [he])
    have hr : '.' ∉ rest := fun he => h (by simp [he])
    simp [lastDot, ih hr, hc]

/-- C8, counterexample: on the hidden-file name `".png"` the spec's
extension rule (empty only for names with no dot or a trailing dot)
classifies into `Images`, while the code's `_get_file_category`
(`Path.suffix` is empty when the last dot is the leading character)
returns the uncategorized label `"Other"`. -/
theorem c8_counterexample :
    specClassify ".png" = "Images" ∧ getFileCategory ".png" = "Other" ∧
      ¬specClassify ".png" = getFileCategory ".png" := by decide

/-- C8 (amended): the classifier is a pure function of the name: it
lowercases the Python `Path.suffix` of the name (empty when the name has
no dot, ends in a dot, or its only last dot is the leading character),
walks the configured categories in their fixed order returning the first
whose extension set contains it — equivalently, since the configured
sets are disjoint, it returns a category exactly when the lowercased
suffix is in that category's set — and returns `"Other"` exactly when no
configured set contains it. -/
theorem c8_classifier (name : String) :
    (∀ cat exts, (cat, exts) ∈ categories →
      (getFileCategory name = cat ↔ strLower (pySuffix name) ∈ exts)) ∧
    (getFileCategory name = "Other" ↔ ∀ p ∈ categories, strLower (pySuffix name) ∉ p.2) := by
  have hok : CatsOK categories := by unfold CatsOK; decide
  have hO : ∀ p ∈ categories, p.1 ≠ "Other" := by decide
  refine ⟨fun cat exts hmem => findCat_eq_iff categories _ hok hO cat exts hmem, ?_, ?_⟩
  · intro h p hp hmem
    have h1 : getFileCategory name = p.1 :=
      (findCat_eq_iff categories _ hok hO p.1 p.2 (by rw [Prod.mk.eta]; exact hp)).mpr hmem
    exact hO p hp (by rw [← h1, h])
  · exact findCat_other categories _

/-- C8, witness: the characterization at `photo.png` and `Images`. -/
theorem c8_witness : getFileCategory "photo.png" = "Images" :=
  ((c8_classifier "photo.png").1 "Images"
    [".jpg", ".jpeg", ".png", ".gif", ".bmp", ".tiff", ".webp", ".svg", ".ico", ".heic"]
    (by decide)).mpr (by decide)

/-- C10: a dotfile name (leading dot, no other dot) has an empty
`Path.suffix`, so `_get_file_category` returns `"Other"`; consequently
`_move_file` on such a file targets the `Others/` bucket: it appends the
file to `Others/` and leaves every category directory unchanged. -/
theorem c10_dotfile_uncategorized (name : String) (rest : List Char)
    (hdata : name.data = '.' :: rest) (hnodot : '.' ∉ rest) :
    pySuffix name = "" ∧ getFileCategory name = "Other" ∧
    ∀ (s : FSState) (e : Entry), e.name = name →
      (∀ c ∈ categoryNames, getSub (moveFile s e (getFileCategory e.name)) c = getSub s c) ∧
      ∃ d, getSub (moveFile s e (getFileCategory e.name)) "Others" =
        getSub s "Others" ++ [⟨d, false⟩] := by
  have h1 : pySuffix name = "" := by
    rw [pySuffix, pySplit, hdata]
    simp [lastDot, lastDot_eq_none rest hnodot]
  have h2 : getFileCategory name = "Other" := by
    rw [getFileCategory, h1]
    decide
  refine ⟨h1, h2, fun s e he => ?_⟩
  have hcat : getFileCategory e.name = "Other" := by rw [he]; exact h2
  have hsubs : (moveFile s e (getFileCategory e.name)).subs =
      setSub s.subs "Others" (getSub s "Others" ++
        [⟨resolveName ((getSub s "Others").map (·.name))
            (fileCand (pyStem e.name) (pySuffix e.name)), false⟩]) := by
    rw [hcat]
    simp [moveFile, getSub]
  constructor
  · intro c hc
    have hcne : "Others" ≠ c := fun hh =>
      (by decide : ("Others" : String) ∉ categoryNames) (hh ▸ hc)
    show getSubL (moveFile s e (getFileCategory e.name)).subs c = getSubL s.subs c
    rw [hsubs, getSubL_setSub_ne _ _ _ _ hcne]
  · refine ⟨resolveName ((getSub s "Others").map (·.name))
      (fileCand (pyStem e.name) (pySuffix e.name)), ?_⟩
    show getSubL (moveFile s e (getFileCategory e.name)).subs "Others" = _
    rw [hsubs, getSubL_setSub_self]

/-- C10, witness: the dotfile facts at `".bashrc"`. -/
theorem c10_witness : pySuffix ".bashrc" = "" ∧ getFileCategory ".bashrc" = "Other" :=
  ⟨(c10_dotfile_uncategorized ".bashrc" ['b', 'a', 's', 'h', 'r', 'c'] (by decide) (by decide)).1,
   (c10_dotfile_uncategorized ".bashrc" ['b', 'a', 's', 'h', 'r', 'c'] (by decide) (by decide)).2.1⟩

end DSort

namespace DSort

theorem mem_removeName {f : Entry} {n : String} {l : List Entry} :
    f ∈ removeName n l ↔ f ∈ l ∧ f.name ≠ n := by
  simp [removeName, List.mem_filter]

theorem isDir_true_of_ne_false {e : Entry} (h : ¬e.isDir = false) : e.isDir = true := by
  revert h
  cases e.isDir <;> simp

theorem scanStep_file_tracked (t : FSState) (e : Entry) (hd : e.isDir = false)
    (htr : e.name ∈ t.tracked) : scanStep t e = t := by
  simp [scanStep, hd, htr]

theorem scanStep_file_other (t : FSState) (e : Entry) (hd : e.isDir = false)
    (htr : e.name ∉ t.tracked) (hc : getFileCategory e.name = "Other") :
    scanStep t e = { t with tracked := t.tracked ++ [e.name] } := by
  simp [scanStep, hd, htr, hc]

theorem scanStep_file_move (t : FSState) (e : Entry) (hd : e.isDir = false)
    (htr : e.name ∉ t.tracked) (hc : getFileCategory e.name ≠ "Other") :
    scanStep t e = { moveFile t e (getFileCategory e.name) with
      tracked := t.tracked ++ [e.name] } := by
  simp [scanStep, hd, htr, hc, moveFile]

theorem scanStep_dir_reserved (t : FSState) (e : Entry) (hd : e.isDir = true)
    (hr : e.name ∈ categoryNames ∨ e.name ∈ ignoredFolders) : scanStep t e = t := by
  simp [scanStep, hd, hr]

theorem scanStep_dir_rogue (t : FSState) (e : Entry) (hd : e.isDir = true)
    (hr : ¬(e.name ∈ categoryNames ∨ e.name ∈ ignoredFolders)) :
    scanStep t e = moveFolderToRogue t e := by
  simp [scanStep, hd, hr]

theorem scanStep_top_sub {t : FSState} {e f : Entry} (h : f ∈ (scanStep t e).top) :
    f ∈ t.top := by
  by_cases hd : e.isDir = false
  · by_cases htr : e.name ∈ t.tracked
    · rwa [scanStep_file_tracked t e hd htr] at h
    · by_cases hc : getFileCategory e.name = "Other"
      · rw [scanStep_file_other t e hd htr hc] at h
        exact h
      · rw [scanStep_file_move t e hd htr hc] at h
        have h' : f ∈ removeName e.name t.top := h
        exact (mem_removeName.mp h').1
  · have hd' := isDir_true_of_ne_false hd
    by_cases hr : e.name ∈ categoryNames ∨ e.name ∈ ignoredFolders
    · rwa [scanStep_dir_reserved t e hd' hr] at h
    · rw [scanStep_dir_rogue t e hd' hr] at h
      have h' : f ∈ removeName e.name t.top := h
      exact (mem_removeName.mp h').1

theorem scanStep_tracked_mono {t : FSState} {e : Entry} {x : String} (h : x ∈ t.tracked) :
    x ∈ (scanStep t e).tracked := by
  by_cases hd : e.isDir = false
  · by_cases htr : e.name ∈ t.tracked
    · rwa [scanStep_file_tracked t e hd htr]
    · by_cases hc : getFileCategory e.name = "Other"
      · rw [scanStep_file_other t e hd htr hc]
        exact List.mem_append_left _ h
      · rw [scanStep_file_move t e hd htr hc]
        exact List.mem_append_left _ h
  · have hd' := isDir_true_of_ne_false hd
    by_cases hr : e.name ∈ categoryNames ∨ e.name ∈ ignoredFolders
    · rwa [scanStep_dir_reserved t e hd' hr]
    · rw [scanStep_dir_rogue t e hd' hr]
      exact h

theorem Pres_mono {t : FSState} {e f : Entry} (h : Pres t f) : Pres (scanStep t e) f :=
  ⟨fun hd => scanStep_tracked_mono (h.1 hd), h.2⟩

theorem scan_inv : ∀ (l : List Entry) (t : FSState),
    (∀ e ∈ t.top, e ∈ l ∨ Pres t e) →
    ∀ e ∈ (l.foldl scanStep t).top, Pres (l.foldl scanStep t) e := by
  intro l
  induction l with
  | nil =>
    intro t h e he
    rcases h e he with h1 | h1
    · simp at h1
    · exact h1
  | cons f rest ih =>
    intro t h e he
    rw [List.foldl_cons] at he ⊢
    refine ih (scanStep t f) (fun x hx => ?_) e he
    have hxt : x ∈ t.top := scanStep_top_sub hx
    rcases h x hxt with h1 | h1
    · rcases List.mem_cons.mp h1 with rfl | h2
      · right
        by_cases hd : x.isDir = false
        · by_cases htr : x.name ∈ t.tracked
          · rw [scanStep_file_tracked t x hd htr]
            exact ⟨fun _ => htr, fun hdt => absurd hd (by simp [hdt])⟩
          · by_cases hc : getFileCategory x.name = "Other"
            · rw [scanStep_file_other t x hd htr hc]
              exact ⟨fun _ => List.mem_append_right _ (by simp),
                fun hdt => absurd hd (by simp [hdt])⟩
            · exfalso
              rw [scanStep_file_move t x hd htr hc] at hx
              have hx' : x ∈ removeName x.name t.top := hx
              exact (mem_removeName.mp hx').2 rfl
        · have hd' := isDir_true_of_ne_false hd
          by_cases hr : x.name ∈ categoryNames ∨ x.name ∈ ignoredFolders
          · rw [scanStep_dir_reserved t x hd' hr]
            exact ⟨fun hdf => absurd hdf hd, fun _ => hr⟩
          · exfalso
            rw [scanStep_dir_rogue t x hd' hr] at hx
            have hx' : x ∈ removeName x.name t.top := hx
            exact (mem_removeName.mp hx').2 rfl
      · exact Or.inl h2
    · exact Or.inr (Pres_mono h1)

theorem pres_fullScan (s : FSState) : ∀ e ∈ (fullScan s).top, Pres (fullScan s) e :=
  scan_inv s.top s (fun _ he => Or.inl he)

theorem foldl_scan_fix (l : List Entry) (t : FSState) (h : ∀ e ∈ l, scanStep t e = t) :
    l.foldl scanStep t = t := by
  induction l with
  | nil => rfl
  | cons f rest ih =>
    rw [List.foldl_cons, h f (by simp)]
    exact ih (fun e he => h e (by simp [he]))

end DSort

namespace DSort

/-- C7: running the full scan twice with no external change in between is
idempotent: the second `_scan_and_sort_existing_files` run moves nothing
and leaves the whole state (top level, subdirectories, tracked names)
unchanged. -/
theorem c7_fullScan_idempotent (s : FSState) : fullScan (fullScan s) = fullScan s := by
  show (fullScan s).top.foldl scanStep (fullScan s) = fullScan s
  apply foldl_scan_fix
  intro e he
  have hp := pres_fullScan s e he
  by_cases hd : e.isDir = false
  · exact scanStep_file_tracked _ e hd (hp.1 hd)
  · have hd' := isDir_true_of_ne_false hd
    exact scanStep_dir_reserved _ e hd' (hp.2 hd')

theorem scanStep_keep {t : FSState} {e f : Entry} (he : e ∈ t.top)
    (hne : f.name ≠ e.name) : e ∈ (scanStep t f).top := by
  by_cases hd : f.isDir = false
  · by_cases htr : f.name ∈ t.tracked
    · rwa [scanStep_file_tracked t f hd htr]
    · by_cases hc : getFileCategory f.name = "Other"
      · rw [scanStep_file_other t f hd htr hc]
        exact he
      · rw [scanStep_file_move t f hd htr hc]
        show e ∈ removeName f.name t.top
        exact mem_removeName.mpr ⟨he, fun hh => hne hh.symm⟩
  · have hd' := isDir_true_of_ne_false hd
    by_cases hr : f.name ∈ categoryNames ∨ f.name ∈ ignoredFolders
    · rwa [scanStep_dir_reserved t f hd' hr]
    · rw [scanStep_dir_rogue t f hd' hr]
      show e ∈ removeName f.name t.top
      exact mem_removeName.mpr ⟨he, fun hh => hne hh.symm⟩

theorem foldl_scanStep_keep (e : Entry)
    (hself : ∀ t : FSState, e ∈ t.top → e ∈ (scanStep t e).top) :
    ∀ (l : List Entry) (t : FSState), e ∈ t.top →
      (∀ f ∈ l, f.name = e.name → f = e) → e ∈ (l.foldl scanStep t).top := by
  intro l
  induction l with
  | nil => intro t he _; exact he
  | cons f rest ih =>
    intro t he h
    rw [List.foldl_cons]
    by_cases hfe : f.name = e.name
    · have : f = e := h f (by simp) hfe
      subst this
      exact ih (scanStep t f) (hself t he) (fun g hg => h g (by simp [hg]))
    · exact ih (scanStep t f) (scanStep_keep he hfe) (fun g hg => h g (by simp [hg]))

theorem nodup_names_inj {l : List Entry} (h : (l.map (·.name)).Nodup)
    {a b : Entry} (ha : a ∈ l) (hb : b ∈ l) (hn : a.name = b.name) : a = b :=
  List.inj_on_of_nodup_map h ha hb hn

theorem foldl_tracked_mono {x : String} :
    ∀ (l : List Entry) (t : FSState), x ∈ t.tracked → x ∈ (l.foldl scanStep t).tracked := by
  intro l
  induction l with
  | nil => intro t h; exact h
  | cons f rest ih =>
    intro t h
    rw [List.foldl_cons]
    exact ih (scanStep t f) (scanStep_tracked_mono h)

theorem fold_tracks (e : Entry) (hd : e.isDir = false) :
    ∀ (l : List Entry) (t : FSState), e ∈ l → e.name ∈ (l.foldl scanStep t).tracked := by
  intro l
  induction l with
  | nil => intro t h; simp at h
  | cons f rest ih =>
    intro t h
    rw [List.foldl_cons]
    rcases List.mem_cons.mp h with rfl | h2
    · by_cases htr : e.name ∈ t.tracked
      · exact foldl_tracked_mono rest _ (scanStep_tracked_mono htr)
      · by_cases hc : getFileCategory e.name = "Other"
        · refine foldl_tracked_mono rest _ ?_
          rw [scanStep_file_other t e hd htr hc]
          exact List.mem_append_right _ (by simp)
        · refine foldl_tracked_mono rest _ ?_
          rw [scanStep_file_move t e hd htr hc]
          exact List.mem_append_right _ (by simp)
    · exact ih (scanStep t f) h2

theorem scanStep_others (t : FSState) (e : Entry) :
    getSubL (scanStep t e).subs "Others" = getSubL t.subs "Others" := by
  by_cases hd : e.isDir = false
  · by_cases htr : e.name ∈ t.tracked
    · rw [scanStep_file_tracked t e hd htr]
    · by_cases hc : getFileCategory e.name = "Other"
      · rw [scanStep_file_other t e hd htr hc]
      · rw [scanStep_file_move t e hd htr hc]
        have hmem : getFileCategory e.name ∈ categoryNames := by
          rcases getFileCategory_other_or_mem e.name with h | h
          · exact absurd h hc
          · exact h
        have hne : getFileCategory e.name ≠ "Others" := fun hh =>
          (by decide : ("Others" : String) ∉ categoryNames) (hh ▸ hmem)
        show getSubL (setSub t.subs
          (if getFileCategory e.name = "Other" then "Others" else getFileCategory e.name)
          _) "Others" = _
        rw [if_neg hc]
        exact getSubL_setSub_ne _ _ _ _ hne
  · have hd' := isDir_true_of_ne_false hd
    by_cases hr : e.name ∈ categoryNames ∨ e.name ∈ ignoredFolders
    · rw [scanStep_dir_reserved t e hd' hr]
    · rw [scanStep_dir_rogue t e hd' hr]
      show getSubL (setSub t.subs "Rogue_Folders" _) "Others" = _
      exact getSubL_setSub_ne _ _ _ _ (by decide)

theorem fullScan_others_unchanged (s : FSState) :
    getSub (fullScan s) "Others" = getSub s "Others" := by
  show getSubL (s.top.foldl scanStep s).subs "Others" = getSubL s.subs "Others"
  generalize s.top = l
  induction l generalizing s with
  | nil => rfl
  | cons f rest ih =>
    rw [List.foldl_cons, ih (scanStep s f), scanStep_others]

/-- C1 (amended): during the full scan a file whose extension matches no
configured category is left in place at the top level (only its name is
added to the tracked set); the `Others/` bucket is not touched by the
full scan. Uncategorized files reach `Others/` only through the
incremental pass. -/
theorem c1_uncategorized_left_in_place (s : FSState) (e : Entry)
    (hnd : (s.top.map (·.name)).Nodup) (he : e ∈ s.top) (hf : e.isDir = false)
    (hc : getFileCategory e.name = "Other") :
    e ∈ (fullScan s).top ∧ e.name ∈ (fullScan s).tracked ∧
      getSub (fullScan s) "Others" = getSub s "Others" := by
  refine ⟨?_, fold_tracks e hf s.top s he, fullScan_others_unchanged s⟩
  apply foldl_scanStep_keep e ?_ s.top s he
    (fun f hf' hn => nodup_names_inj hnd hf' he hn)
  intro t het
  by_cases htr : e.name ∈ t.tracked
  · rwa [scanStep_file_tracked t e hf htr]
  · rw [scanStep_file_other t e hf htr hc]
    exact het

/-- C1, counterexample: after one full scan of a directory containing
only `weird.xyz` (whose extension matches no category), the file is
still at the top level and the `Others/` bucket is empty — it was not
routed to the uncategorized bucket as the claim states. -/
theorem c1_counterexample :
    (fullScan c1State).top = [⟨"weird.xyz", false⟩] ∧
      getSub (fullScan c1State) "Others" = [] ∧
      getFileCategory "weird.xyz" = "Other" := by decide

end DSort

namespace DSort

theorem processOne_none (t : FSState) (g : String)
    (h : t.top.find? (fun x => x.name == g) = none) : processOne t g = t := by
  simp [processOne, h]

theorem processOne_file (t : FSState) (g : String) (f : Entry)
    (h : t.top.find? (fun x => x.name == g) = some f) (hd : f.isDir = false) :
    processOne t g = { moveFile t f (getFileCategory f.name) with
      tracked := t.tracked ++ [g] } := by
  simp [processOne, h, hd, moveFile]

theorem processOne_dir_reserved (t : FSState) (g : String) (f : Entry)
    (h : t.top.find? (fun x => x.name == g) = some f) (hd : f.isDir = true)
    (hr : f.name ∈ categoryNames ∨ f.name ∈ ignoredFolders) : processOne t g = t := by
  simp [processOne, h, hd, hr]

theorem processOne_dir_rogue (t : FSState) (g : String) (f : Entry)
    (h : t.top.find? (fun x => x.name == g) = some f) (hd : f.isDir = true)
    (hr : ¬(f.name ∈ categoryNames ∨ f.name ∈ ignoredFolders)) :
    processOne t g = moveFolderToRogue t f := by
  simp [processOne, h, hd, hr]

theorem processOne_keep {t : FSState} {e : Entry} {g : String} (he : e ∈ t.top)
    (hg : g ≠ e.name) : e ∈ (processOne t g).top := by
  cases hfind : t.top.find? (fun x => x.name == g) with
  | none =>
    rw [processOne_none t g hfind]
    exact he
  | some f =>
    have hfg : f.name = g := by simpa using List.find?_some hfind
    by_cases hd : f.isDir = false
    · rw [processOne_file t g f hfind hd]
      show e ∈ removeName f.name t.top
      exact mem_removeName.mpr ⟨he, fun hh => hg (hfg ▸ hh).symm⟩
    · have hd' := isDir_true_of_ne_false hd
      by_cases hr : f.name ∈ categoryNames ∨ f.name ∈ ignoredFolders
      · rw [processOne_dir_reserved t g f hfind hd' hr]
        exact he
      · rw [processOne_dir_rogue t g f hfind hd' hr]
        show e ∈ removeName f.name t.top
        exact mem_removeName.mpr ⟨he, fun hh => hg (hfg ▸ hh).symm⟩

theorem tick_top (s : FSState) :
    (tick s).top = (((getCurrentFiles s).filter (fun n => decide (n ∉ s.tracked))).foldl
      processOne s).top := rfl

theorem foldl_processOne_keep (e : Entry) :
    ∀ (names : List String) (t : FSState), e ∈ t.top →
      (∀ g ∈ names, g ≠ e.name) → e ∈ (names.foldl processOne t).top := by
  intro names
  induction names with
  | nil => intro t he _; exact he
  | cons g rest ih =>
    intro t he h
    rw [List.foldl_cons]
    exact ih (processOne t g) (processOne_keep he (h g (by simp)))
      (fun x hx => h x (by simp [hx]))

/-- C2 (amended): a new top-level file whose name is already in the
tracked-name set is not part of the incremental delta, so the
incremental scan skips it: it stays at the top level of the watched
directory instead of being placed under a suffixed name. -/
theorem c2_tracked_name_not_reprocessed (s : FSState) (e : Entry)
    (he : e ∈ s.top) (_hf : e.isDir = false) (ht : e.name ∈ s.tracked) :
    e ∈ (tick s).top := by
  rw [tick_top]
  apply foldl_processOne_keep e _ s he
  intro g hg heq
  have hfil := (List.mem_filter.mp hg).2
  rw [heq] at hfil
  simp at hfil
  exact hfil ht

/-- C2, witness: the skip theorem applied to the concrete state where
`photo.png` is tracked and a new `photo.png` sits at the top level. -/
theorem c2_witness : (⟨"photo.png", false⟩ : Entry) ∈ (tick c2State).top :=
  c2_tracked_name_not_reprocessed c2State ⟨"photo.png", false⟩ (by decide) rfl (by decide)

/-- C2, counterexample: with `photo.png` already sorted into `Images/`
and its name tracked, a new top-level `photo.png` is left exactly where
it is by the incremental scan — no `Images/photo_1.png` is created,
contradicting the claim. -/
theorem c2_counterexample :
    tick c2State = c2State ∧
      (⟨"photo_1.png", false⟩ : Entry) ∉ getSub (tick c2State) "Images" := by decide

/-- C3: `_get_current_files` lists only files, so a directory that newly
appears after the initial scan is never part of the incremental delta;
the folder branch of `_process_new_files` is unreachable and the new
directory `NewDir` — neither a category name nor ignored — stays at the
top level, with `Rogue_Folders/` left empty, contradicting the
documented quarantine policy for newly-appeared directories. -/
theorem c3_new_directory_not_quarantined :
    tick c3State = c3State ∧ (⟨"NewDir", true⟩ : Entry) ∈ (tick c3State).top ∧
      getSub (tick c3State) "Rogue_Folders" = [] ∧
      ¬("NewDir" ∈ categoryNames ∨ "NewDir" ∈ ignoredFolders) := by decide

/-- C9: a top-level directory whose name is a configured category name or
is in the ignore list survives both the full scan and an incremental
pass at the top level — it is never moved to `Rogue_Folders/`. -/
theorem c9_reserved_dirs_never_quarantined (s : FSState) (e : Entry)
    (hnd : (s.top.map (·.name)).Nodup) (he : e ∈ s.top) (hd : e.isDir = true)
    (hr : e.name ∈ categoryNames ∨ e.name ∈ ignoredFolders) :
    e ∈ (fullScan s).top ∧ e ∈ (tick s).top := by
  constructor
  · exact foldl_scanStep_keep e
      (fun t' he' => by rw [scanStep_dir_reserved t' e hd hr]; exact he') s.top s he
      (fun f hf hn => nodup_names_inj hnd hf he hn)
  · rw [tick_top]
    apply foldl_processOne_keep e _ s he
    intro g hg heq
    have hg1 := (List.mem_filter.mp hg).1
    obtain ⟨f, hf1, hf2⟩ := List.mem_map.mp hg1
    have hf3 := (List.mem_filter.mp hf1).1
    have hf4 : f.isDir = false := by simpa using (List.mem_filter.mp hf1).2
    have hfe : f = e := nodup_names_inj hnd hf3 he (by rw [hf2, heq])
    rw [hfe, hd] at hf4
    exact Bool.noConfusion hf4

/-- C9, witness: the reserved directory `gcode drop` survives a full
scan and a tick of a directory that also holds a sortable file and a
stray folder. -/
theorem c9_witness :
    (⟨"gcode drop", true⟩ : Entry) ∈
        (fullScan ⟨[⟨"gcode drop", true⟩, ⟨"x.png", false⟩, ⟨"Stray", true⟩], initSubs, []⟩).top ∧
      (⟨"gcode drop", true⟩ : Entry) ∈
        (tick ⟨[⟨"gcode drop", true⟩, ⟨"x.png", false⟩, ⟨"Stray", true⟩], initSubs, []⟩).top :=
  c9_reserved_dirs_never_quarantined ⟨[⟨"gcode drop", true⟩, ⟨"x.png", false⟩, ⟨"Stray", true⟩],
    initSubs, []⟩ ⟨"gcode drop", true⟩ (by decide) (by decide) rfl (by decide)

/-- C1, witness: the amended full-scan theorem applied to the concrete
one-file state holding `weird.xyz`. -/
theorem c1_witness :
    (⟨"weird.xyz", false⟩ : Entry) ∈ (fullScan c1State).top ∧
      "weird.xyz" ∈ (fullScan c1State).tracked ∧
      getSub (fullScan c1State) "Others" = getSub c1State "Others" :=
  c1_uncategorized_left_in_place c1State ⟨"weird.xyz", false⟩ (by decide) (by decide) rfl
    (by decide)

end DSort

namespace DSort

theorem hasDirNamed_iff {l : List Entry} {n : String} :
    hasDirNamed l n = true ↔ ∃ d ∈ l, d.isDir = true ∧ d.name = n := by
  simp [hasDirNamed, List.any_eq_true, Bool.and_eq_true]

theorem hasDirNamed_removeName {cur : List Entry} {rn n : String}
    (hnodir : ∀ d ∈ cur, d.isDir = true → d.name ≠ rn) :
    hasDirNamed (removeName rn cur) n = hasDirNamed cur n := by
  have hb : ∀ (a b : Bool), (a = true ↔ b = true) → a = b := by decide
  apply hb
  rw [hasDirNamed_iff, hasDirNamed_iff]
  constructor
  · rintro ⟨d, hd1, hd2, hd3⟩
    exact ⟨d, (mem_removeName.mp hd1).1, hd2, hd3⟩
  · rintro ⟨d, hd1, hd2, hd3⟩
    exact ⟨d, mem_removeName.mpr ⟨hd1, hnodir d hd1 hd2⟩, hd2, hd3⟩

theorem isRedundantZip_congr {cur cur' : List Entry} (e : Entry)
    (h : ∀ n, hasDirNamed cur n = hasDirNamed cur' n) :
    isRedundantZip cur e = isRedundantZip cur' e := by
  simp [isRedundantZip, h]

theorem isRedundantZip_file {cur : List Entry} {e : Entry}
    (h : isRedundantZip cur e = true) : e.isDir = false := by
  simp [isRedundantZip, Bool.and_eq_true] at h
  simpa using h.1.1

theorem cleanupRun_mem_nofail (entries : List Entry)
    (hnd : (entries.map (·.name)).Nodup) :
    ∀ (rest cur : List Entry), (∀ y ∈ rest, y ∈ entries) → (∀ y ∈ cur, y ∈ entries) →
      (∀ n, hasDirNamed cur n = hasDirNamed entries n) →
      ∀ x, x ∈ cleanupRun [] rest cur ↔
        x ∈ cur ∧ ¬(x ∈ rest ∧ isRedundantZip entries x = true) := by
  intro rest
  induction rest with
  | nil =>
    intro cur _ _ _ x
    simp [cleanupRun]
  | cons e rest' ih =>
    intro cur hrest hcur hstab x
    have hred_eq : isRedundantZip cur e = isRedundantZip entries e :=
      isRedundantZip_congr e hstab
    by_cases hred : isRedundantZip cur e = true
    · have hrede : isRedundantZip entries e = true := by rw [← hred_eq]; exact hred
      have hefile : e.isDir = false := isRedundantZip_file hrede
      rw [show cleanupRun [] (e :: rest') cur =
          cleanupRun [] rest' (removeName e.name cur) by simp [cleanupRun, hred]]
      have hnodir : ∀ d ∈ cur, d.isDir = true → d.name ≠ e.name := by
        intro d hd hdir heq
        have hde : d = e := nodup_names_inj hnd (hcur d hd) (hrest e (by simp)) heq
        rw [hde, hefile] at hdir
        exact Bool.noConfusion hdir
      rw [ih (removeName e.name cur) (fun y hy => hrest y (by simp [hy]))
        (fun y hy => hcur y (mem_removeName.mp hy).1)
        (fun n => (hasDirNamed_removeName hnodir).trans (hstab n)) x]
      constructor
      · rintro ⟨hx1, hx2⟩
        obtain ⟨hx1', hxne⟩ := mem_removeName.mp hx1
        refine ⟨hx1', fun hcon => ?_⟩
        rcases List.mem_cons.mp hcon.1 with rfl | hxr'
        · exact hxne rfl
        · exact hx2 ⟨hxr', hcon.2⟩
      · rintro ⟨hx1, hx2⟩
        have hxne : x.name ≠ e.name := by
          intro heq
          have hxe : x = e := nodup_names_inj hnd (hcur x hx1) (hrest e (by simp)) heq
          exact hx2 ⟨by simp [hxe], by rw [hxe]; exact hrede⟩
        exact ⟨mem_removeName.mpr ⟨hx1, hxne⟩, fun hcon => hx2 ⟨by simp [hcon.1], hcon.2⟩⟩
    · have hrede : isRedundantZip entries e = false := by
        rw [← hred_eq]
        exact Bool.not_eq_true _ ▸ hred
      rw [show cleanupRun [] (e :: rest') cur = cleanupRun [] rest' cur by
        simp [cleanupRun, hred]]
      rw [ih cur (fun y hy => hrest y (by simp [hy])) hcur hstab x]
      constructor
      · rintro ⟨hx1, hx2⟩
        refine ⟨hx1, fun hcon => ?_⟩
        rcases List.mem_cons.mp hcon.1 with rfl | hxr'
        · rw [hrede] at hcon
          exact Bool.noConfusion hcon.2
        · exact hx2 ⟨hxr', hcon.2⟩
      · rintro ⟨hx1, hx2⟩
        exact ⟨hx1, fun hcon => hx2 ⟨by simp [hcon.1], hcon.2⟩⟩

/-- C5: in one failure-free reconciliation pass over `Zip_Files/`, an
entry is deleted exactly when it is a file, its lowercased extension is
in the archive-extension set, and a directory named exactly its stem
exists in the same directory; in particular sibling directories and
archives without a same-stem sibling directory are left untouched. -/
theorem c5_cleanup_characterization (entries : List Entry)
    (hnd : (entries.map (·.name)).Nodup) (e : Entry) (he : e ∈ entries) :
    e ∈ cleanupZips entries [] ↔
      ¬(e.isDir = false ∧ strLower (pySuffix e.name) ∈ zipExts ∧
        ∃ d ∈ entries, d.isDir = true ∧ d.name = pyStem e.name) := by
  have h := cleanupRun_mem_nofail entries hnd entries entries (fun y hy => hy)
    (fun y hy => hy) (fun n => rfl) e
  rw [show cleanupZips entries [] = cleanupRun [] entries entries from rfl, h]
  have hbool : isRedundantZip entries e = true ↔
      (e.isDir = false ∧ strLower (pySuffix e.name) ∈ zipExts ∧
        ∃ d ∈ entries, d.isDir = true ∧ d.name = pyStem e.name) := by
    simp [isRedundantZip, Bool.and_eq_true, hasDirNamed_iff, List.contains,
      Bool.not_eq_true', and_assoc]
  constructor
  · rintro ⟨_, h2⟩ hcond
    exact h2 ⟨he, hbool.mpr hcond⟩
  · intro h1
    exact ⟨he, fun hcon => h1 (hbool.mp hcon.2)⟩

/-- C5, witness: on `[archive.zip, archive/, solo.zip]` the
characterization gives: `archive.zip` is deleted, while the sibling
directory `archive/` and the sibling-less `solo.zip` are kept. -/
theorem c5_witness :
    (⟨"archive.zip", false⟩ : Entry) ∉
      cleanupZips [⟨"archive.zip", false⟩, ⟨"archive", true⟩, ⟨"solo.zip", false⟩] [] ∧
    (⟨"archive", true⟩ : Entry) ∈
      cleanupZips [⟨"archive.zip", false⟩, ⟨"archive", true⟩, ⟨"solo.zip", false⟩] [] ∧
    (⟨"solo.zip", false⟩ : Entry) ∈
      cleanupZips [⟨"archive.zip", false⟩, ⟨"archive", true⟩, ⟨"solo.zip", false⟩] [] :=
  ⟨fun h => (c5_cleanup_characterization _ (by decide) _ (by decide)).mp h (by decide),
   (c5_cleanup_characterization _ (by decide) _ (by decide)).mpr (by decide),
   (c5_cleanup_characterization _ (by decide) _ (by decide)).mpr (by decide)⟩

end DSort

namespace DSort

theorem cleanupRun_abort (entries : List Entry) (fails : List String)
    (hnd : (entries.map (·.name)).Nodup) :
    ∀ (pre : List Entry) (cur : List Entry) (e : Entry) (post : List Entry),
      (∀ y ∈ pre ++ e :: post, y ∈ entries) → (∀ y ∈ cur, y ∈ entries) →
      (∀ n, hasDirNamed cur n = hasDirNamed entries n) →
      isRedundantZip entries e = true → e.name ∈ fails →
      (∀ y ∈ pre, ¬(isRedundantZip entries y = true ∧ y.name ∈ fails)) →
      ∀ x ∈ cur, (∀ y ∈ pre, x.name ≠ y.name) →
        x ∈ cleanupRun fails (pre ++ e :: post) cur := by
  intro pre
  induction pre with
  | nil =>
    intro cur e post _ _ hstab hrede hfail _ x hx _
    have hce : isRedundantZip cur e = true := by
      rw [isRedundantZip_congr e hstab]
      exact hrede
    rw [List.nil_append,
      show cleanupRun fails (e :: post) cur = cur by simp [cleanupRun, hce, hfail]]
    exact hx
  | cons y pre' ih =>
    intro cur e post hrest hcur hstab hrede hfail hpre x hx hxpre
    rw [List.cons_append]
    by_cases hyr : isRedundantZip cur y = true
    · have hyre : isRedundantZip entries y = true := by
        rw [← isRedundantZip_congr y hstab]
        exact hyr
      have hynf : y.name ∉ fails := fun hf => hpre y (by simp) ⟨hyre, hf⟩
      rw [show cleanupRun fails (y :: (pre' ++ e :: post)) cur =
          cleanupRun fails (pre' ++ e :: post) (removeName y.name cur) by
        simp [cleanupRun, hyr, hynf]]
      have hyfile : y.isDir = false := isRedundantZip_file hyre
      have hnodir : ∀ d ∈ cur, d.isDir = true → d.name ≠ y.name := by
        intro d hd hdir heq
        have hde : d = y := nodup_names_inj hnd (hcur d hd) (hrest y (by simp)) heq
        rw [hde, hyfile] at hdir
        exact Bool.noConfusion hdir
      exact ih (removeName y.name cur) e post
        (fun z hz => hrest z (List.mem_cons_of_mem y hz))
        (fun z hz => hcur z (mem_removeName.mp hz).1)
        (fun n => (hasDirNamed_removeName hnodir).trans (hstab n))
        hrede hfail (fun z hz => hpre z (by simp [hz]))
        x (mem_removeName.mpr ⟨hx, hxpre y (by simp)⟩)
        (fun z hz => hxpre z (by simp [hz]))
    · rw [show cleanupRun fails (y :: (pre' ++ e :: post)) cur =
          cleanupRun fails (pre' ++ e :: post) cur by simp [cleanupRun, hyr]]
      exact ih cur e post (fun z hz => hrest z (List.mem_cons_of_mem y hz)) hcur hstab
        hrede hfail (fun z hz => hpre z (by simp [hz])) x hx
        (fun z hz => hxpre z (by simp [hz]))

/-- C4 (amended): when deleting a redundant archive fails, the exception
is caught by the `try/except` around the whole loop, so the failure is
reported and is not fatal — but it ends the cleanup pass: the failing
archive and every entry after it in iteration order remain in place,
including later redundant candidates. -/
theorem c4_failure_aborts_rest (entries : List Entry) (fails : List String)
    (pre post : List Entry) (e : Entry)
    (hnd : (entries.map (·.name)).Nodup)
    (hsplit : entries = pre ++ e :: post)
    (hred : isRedundantZip entries e = true)
    (hfail : e.name ∈ fails)
    (hpre : ∀ y ∈ pre, ¬(isRedundantZip entries y = true ∧ y.name ∈ fails)) :
    e ∈ cleanupZips entries fails ∧ ∀ x ∈ post, x ∈ cleanupZips entries fails := by
  subst hsplit
  have hnd' := hnd
  rw [List.map_append, List.nodup_append] at hnd'
  have hdisj := hnd'.2.2
  have hxnames : ∀ x ∈ e :: post, ∀ y ∈ pre, x.name ≠ y.name := by
    intro x hx y hy heq
    exact hdisj (List.mem_map_of_mem (·.name) hy) (heq ▸ List.mem_map_of_mem (·.name) hx)
  have key := cleanupRun_abort (pre ++ e :: post) fails hnd pre (pre ++ e :: post) e post
    (fun y hy => hy) (fun y hy => hy) (fun n => rfl) hred hfail hpre
  constructor
  · exact key e (List.mem_append_right _ (by simp)) (fun y hy => hxnames e (by simp) y hy)
  · intro x hx
    exact key x (List.mem_append_right _ (by simp [hx]))
      (fun y hy => hxnames x (by simp [hx]) y hy)

/-- C4, witness: the abort theorem at the concrete `Zip_Files/` contents
`[a.zip, a/, b.zip, b/]` with the deletion of `a.zip` failing. -/
theorem c4_witness :
    (⟨"a.zip", false⟩ : Entry) ∈ cleanupZips cexZips ["a.zip"] ∧
      ∀ x ∈ [(⟨"a", true⟩ : Entry), ⟨"b.zip", false⟩, ⟨"b", true⟩],
        x ∈ cleanupZips cexZips ["a.zip"] :=
  c4_failure_aborts_rest cexZips ["a.zip"] [] [⟨"a", true⟩, ⟨"b.zip", false⟩, ⟨"b", true⟩]
    ⟨"a.zip", false⟩ (by decide) rfl (by decide) (by decide) (by decide)

/-- C4, counterexample: with `Zip_Files/` holding `a.zip`, `a/`, `b.zip`,
`b/` and the deletion of `a.zip` failing, the pass deletes nothing at
all — in particular the unaffected redundant candidate `b.zip` is kept,
although without the failure it would have been deleted, contradicting
the claim that a failure does not affect the other candidates. -/
theorem c4_counterexample :
    cleanupZips cexZips ["a.zip"] = cexZips ∧
      cleanupZips cexZips [] = [⟨"a", true⟩, ⟨"b", true⟩] ∧
      isRedundantZip cexZips ⟨"b.zip", false⟩ = true := by decide

end DSort
